import Mathlib

/-!
Shallow embedding of the str-intern crate (src/lib.rs and src/sync.rs).

Allocation identity is made explicit: a `World` is the list of string
allocations performed so far (the index of a cell is its allocation id),
and a `Handle` models an `Rc<str>` / `Arc<str>`: the id of the allocation
it points to together with the (immutable) content stored there.  Two
handles are identity-equal (`Rc::ptr_eq`) iff their ids coincide.

The Rust `HashSet<InternedStr>` is modelled as a list of handles; the
`Eq`/`Hash` instances of `Rc<str>`/`Arc<str>` delegate to `str`, so all
set operations are keyed by content, exactly as in the source.
-/

namespace StrIntern

/-- An `InternedStr` (`Rc<str>` in lib.rs, `Arc<str>` in sync.rs): the id of
the allocation it aliases plus the immutable content of that allocation. -/
structure Handle where
  id : Nat
  content : String
  deriving DecidableEq, Repr

/-- The allocation state: cell `i` holds the content of allocation id `i`. -/
structure World where
  cells : List String
  deriving DecidableEq, Repr

/-- Models `Rc::from(string)` / `Arc::from(string)`: one fresh allocation holding a
copy of the content; returns the new handle and the grown world. -/
def World.alloc (w : World) (s : String) : Handle × World :=
  (⟨w.cells.length, s⟩, ⟨w.cells ++ [s]⟩)

/-- Models `Rc::ptr_eq` / `Arc::ptr_eq`: identity equality of handles. -/
def ptrEq (a b : Handle) : Bool :=
  a.id == b.id

/-- Models `HashSet::get(string)` with a borrowed `&str` key: membership is decided
by content because `Eq` on `Rc<str>`/`Arc<str>` compares the pointed-to text. -/
def setGet (l : List Handle) (s : String) : Option Handle :=
  l.find? (fun h => h.content == s)

/-- Models `HashSet::insert(handle)`: if a content-equal element is already present
the set is left unchanged (the old element is kept), otherwise the handle is
added. -/
def setInsert (l : List Handle) (h : Handle) : List Handle :=
  if l.any (fun x => x.content == h.content) then l else h :: l

/-- Models `HashSet::contains` by content (also `PartialEq` element lookup). -/
def containsContent (l : List Handle) (s : String) : Bool :=
  l.any (fun h => h.content == s)

/-- Models `HashSet::eq`: same length and every element of the left set is contained
(by content) in the right set. -/
def setEqv (a b : List Handle) : Bool :=
  a.length == b.length && a.all (fun h => containsContent b h.content)

/-- The exclusive-access interner (lib.rs): a `HashSet<InternedStr>`. -/
structure Interner where
  strings : List Handle
  deriving DecidableEq, Repr

/-- Models `Interner::from_set`: store the given set as-is (no re-validation). -/
def Interner.from_set (l : List Handle) : Interner :=
  ⟨l⟩

/-- Models `Interner::new`: `from_set(HashSet::new())`. -/
def Interner.new : Interner :=
  Interner.from_set []

/-- Models `Interner::into_set`: return the underlying set. -/
def Interner.into_set (it : Interner) : List Handle :=
  it.strings

/-- Models `Interner::clear`: `self.strings.clear()`. -/
def Interner.clear (_it : Interner) : Interner :=
  ⟨[]⟩

/-- The value returned by `Interner::intern`, together with the state the
call leaves behind (the mutated interner and the allocation world). -/
structure InternResult where
  handle : Handle
  interner : Interner
  world : World
  deriving DecidableEq, Repr

/-- Models `Interner::intern` (lib.rs lines 107-118): look the string up by content;
on a hit clone the stored handle (no allocation), on a miss allocate one new
handle, insert a clone of it, and return it. -/
def Interner.intern (it : Interner) (w : World) (s : String) : InternResult :=
  match setGet it.strings s with
  | some h => ⟨h, it, w⟩
  | none =>
    let p := w.alloc s
    ⟨p.1, ⟨setInsert it.strings p.1⟩, p.2⟩

/-- Models `Clone for Interner`: `self.strings.clone()` clones the set structure and
`Rc::clone`s each element, so every stored handle still aliases the same
allocation (same id, same content). -/
def Interner.clone (it : Interner) : Interner :=
  ⟨it.strings⟩

/-- Models `PartialEq for Interner`: `self.strings.eq(&other.strings)`. -/
def Interner.beq (a b : Interner) : Bool :=
  setEqv a.strings b.strings

/-- The invariant maintained by `HashSet<InternedStr>` itself: no two members
have the same content. -/
def SetInv (l : List Handle) : Prop :=
  l.Pairwise (fun a b => a.content ≠ b.content)

/-- Well-formedness of an interner against an allocation world: the set holds
no two content-equal handles, and every stored handle points at a live
allocation whose cell holds exactly the content of the handle. -/
def WF (w : World) (it : Interner) : Prop :=
  SetInv it.strings ∧ ∀ h ∈ it.strings, w.cells[h.id]? = some h.content

instance (l : List Handle) : Decidable (SetInv l) := by
  unfold SetInv
  infer_instance

instance (w : World) (it : Interner) : Decidable (WF w it) := by
  unfold WF
  infer_instance

/-- The set of distinct contents stored in a list of handles. -/
def contentsOf (l : List Handle) : Finset String :=
  (l.map Handle.content).toFinset

/-- The set of distinct contents currently interned. -/
def contentsFinset (it : Interner) : Finset String :=
  contentsOf it.strings

/-- Folding a list of intern calls over an interner, threading the world. -/
def Interner.internList (it : Interner) (w : World) : List String → Interner × World
  | [] => (it, w)
  | s :: ss =>
    let r := it.intern w s
    Interner.internList r.interner r.world ss

namespace Sync

/-- The message of `Interner::POISON_MESSAGE` in sync.rs. -/
def poisonMessage : String :=
  "Interner mutex was poisoned"

/-- The thread-safe interner (sync.rs): a `Mutex<HashSet<InternedStr>>`.
The `poisoned` flag models the mutex poison state. -/
structure Interner where
  strings : List Handle
  poisoned : Bool
  deriving DecidableEq, Repr

/-- A `LockedInterner`: the `MutexGuard` granting access to the set. -/
structure LockedInterner where
  strings : List Handle
  deriving DecidableEq, Repr

/-- Models `sync::Interner::from_set`: wrap the given set in a fresh mutex. -/
def Interner.from_set (l : List Handle) : Interner :=
  ⟨l, false⟩

/-- Models `sync::Interner::new`: `from_set(HashSet::new())`. -/
def Interner.new : Interner :=
  Interner.from_set []

/-- Models `sync::Interner::lock` (via the private `strings()` helper):
`self.strings.lock().expect(POISON_MESSAGE)` — fails iff poisoned,
otherwise yields the guard. -/
def Interner.lock (it : Interner) : Except String LockedInterner :=
  if it.poisoned then .error poisonMessage else .ok ⟨it.strings⟩

/-- Models `sync::Interner::into_set`: `self.strings.into_inner().expect(POISON_MESSAGE)`. -/
def Interner.into_set (it : Interner) : Except String (List Handle) :=
  if it.poisoned then .error poisonMessage else .ok it.strings

/-- Models `LockedInterner::clear`: `self.strings.clear()`. -/
def LockedInterner.clear (_li : LockedInterner) : LockedInterner :=
  ⟨[]⟩

/-- Models `LockedInterner::intern` (sync.rs lines 242-253): identical get-or-insert
to the exclusive variant, performed while the lock is held. -/
def LockedInterner.intern (li : LockedInterner) (w : World) (s : String) :
    Handle × LockedInterner × World :=
  match setGet li.strings s with
  | some h => (h, li, w)
  | none =>
    let p := w.alloc s
    (p.1, ⟨setInsert li.strings p.1⟩, p.2)

/-- Models `sync::Interner::intern`: `self.lock().intern(string)`; dropping the guard
writes the mutated set back into the mutex. -/
def Interner.intern (it : Interner) (w : World) (s : String) :
    Except String (Handle × Interner × World) :=
  match it.lock with
  | .error e => .error e
  | .ok li =>
    let r := li.intern w s
    .ok (r.1, ⟨r.2.1.strings, it.poisoned⟩, r.2.2)

/-- Models `sync::Interner::clear`: `self.strings().clear()`. -/
def Interner.clear (it : Interner) : Except String Interner :=
  match it.lock with
  | .error e => .error e
  | .ok li => .ok ⟨(li.clear).strings, it.poisoned⟩

/-- Models `PartialEq for sync::Interner`: `self.strings().eq(&other.strings())` —
locks both engines, then compares the sets by content. -/
def Interner.beq (a b : Interner) : Except String Bool :=
  match a.lock, b.lock with
  | .ok la, .ok lb => .ok (setEqv la.strings lb.strings)
  | .error e, _ => .error e
  | .ok _, .error e => .error e

/-- Models `K` convenience `intern` calls on the shared engine, one after the other:
the mutex serializes contending callers, so any concurrent execution of `K`
single-`intern` critical sections is some sequence of these atomic steps. -/
def Interner.internK (s : String) : Nat → Interner → World →
    Except String (List Handle × Interner × World)
  | 0, it, w => .ok ([], it, w)
  | k + 1, it, w =>
    match it.intern w s with
    | .error e => .error e
    | .ok (h, it2, w2) =>
      match Interner.internK s k it2 w2 with
      | .error e => .error e
      | .ok (hs, it3, w3) => .ok (h :: hs, it3, w3)

end Sync

theorem setGet_eq_none_iff (l : List Handle) (s : String) :
    setGet l s = none ↔ ∀ h ∈ l, h.content ≠ s := by
  unfold setGet
  rw [List.find?_eq_none]
  simp

theorem setGet_some_content (l : List Handle) (s : String) (h : Handle)
    (hg : setGet l s = some h) : h.content = s := by
  have := List.find?_some hg
  simpa using this

theorem setGet_some_mem (l : List Handle) (s : String) (h : Handle)
    (hg : setGet l s = some h) : h ∈ l :=
  List.mem_of_find?_eq_some hg

theorem setGet_of_mem (l : List Handle) (s : String) (h : Handle)
    (hinv : SetInv l) (hm : h ∈ l) (hc : h.content = s) : setGet l s = some h := by
  induction l with
  | nil => cases hm
  | cons a l ih =>
    rcases List.pairwise_cons.mp hinv with ⟨ha, hl⟩
    rcases List.mem_cons.mp hm with rfl | hm2
    · unfold setGet
      rw [List.find?_cons_of_pos]
      simp [hc]
    · have hne : a.content ≠ s := fun he => (ha h hm2) (he.trans hc.symm)
      unfold setGet
      rw [List.find?_cons_of_neg]
      · exact ih hl hm2
      · simp [hne]

theorem setInsert_of_absent (l : List Handle) (h : Handle)
    (habs : ∀ x ∈ l, x.content ≠ h.content) : setInsert l h = h :: l := by
  unfold setInsert
  have hany : l.any (fun x => x.content == h.content) = false := by
    rw [List.any_eq_false]
    intro x hx
    simp [habs x hx]
  simp [hany]

theorem intern_hit (it : Interner) (w : World) (s : String) (h : Handle)
    (hg : setGet it.strings s = some h) : it.intern w s = ⟨h, it, w⟩ := by
  unfold Interner.intern
  rw [hg]

theorem intern_miss (it : Interner) (w : World) (s : String)
    (hg : setGet it.strings s = none) :
    it.intern w s =
      ⟨⟨w.cells.length, s⟩, ⟨⟨w.cells.length, s⟩ :: it.strings⟩, ⟨w.cells ++ [s]⟩⟩ := by
  have habs := (setGet_eq_none_iff _ _).mp hg
  unfold Interner.intern
  rw [hg]
  simp only [World.alloc]
  rw [setInsert_of_absent _ _ (fun x hx => habs x hx)]

theorem intern_content (it : Interner) (w : World) (s : String) :
    (it.intern w s).handle.content = s := by
  cases hg : setGet it.strings s with
  | some h => rw [intern_hit it w s h hg]; exact setGet_some_content _ _ _ hg
  | none => rw [intern_miss it w s hg]

theorem intern_handle_mem (it : Interner) (w : World) (s : String) :
    (it.intern w s).handle ∈ (it.intern w s).interner.strings := by
  cases hg : setGet it.strings s with
  | some h => rw [intern_hit it w s h hg]; exact setGet_some_mem _ _ _ hg
  | none => rw [intern_miss it w s hg]; exact List.mem_cons_self _ _

theorem intern_world_mono (it : Interner) (w : World) (s : String) (i : Nat) (v : String)
    (hv : w.cells[i]? = some v) : (it.intern w s).world.cells[i]? = some v := by
  cases hg : setGet it.strings s with
  | some h => rw [intern_hit it w s h hg]; exact hv
  | none =>
    rw [intern_miss it w s hg]
    have hi : i < w.cells.length := by
      by_contra hc
      rw [List.getElem?_eq_none (Nat.le_of_not_lt hc)] at hv
      cases hv
    show (w.cells ++ [s])[i]? = some v
    rw [List.getElem?_append]
    simp [hi, hv]

theorem setInv_intern (it : Interner) (w : World) (s : String)
    (hinv : SetInv it.strings) : SetInv (it.intern w s).interner.strings := by
  cases hg : setGet it.strings s with
  | some h => rw [intern_hit it w s h hg]; exact hinv
  | none =>
    rw [intern_miss it w s hg]
    have habs := (setGet_eq_none_iff _ _).mp hg
    exact List.pairwise_cons.mpr ⟨fun b hb he => habs b hb he.symm, hinv⟩

theorem WF_id_lt (w : World) (it : Interner) (h : Handle)
    (hwf : WF w it) (hm : h ∈ it.strings) : h.id < w.cells.length := by
  have hv := hwf.2 h hm
  by_contra hc
  rw [List.getElem?_eq_none (Nat.le_of_not_lt hc)] at hv
  cases hv

theorem WF_intern (it : Interner) (w : World) (s : String)
    (hwf : WF w it) : WF (it.intern w s).world (it.intern w s).interner := by
  refine ⟨setInv_intern it w s hwf.1, ?_⟩
  cases hg : setGet it.strings s with
  | some h => rw [intern_hit it w s h hg]; exact hwf.2
  | none =>
    rw [intern_miss it w s hg]
    intro h hm
    rcases List.mem_cons.mp hm with rfl | hm2
    · show (w.cells ++ [s])[w.cells.length]? = some s
      exact List.getElem?_concat_length _ _
    · have hv := hwf.2 h hm2
      have hi : h.id < w.cells.length := WF_id_lt w it h hwf hm2
      show (w.cells ++ [s])[h.id]? = some h.content
      rw [List.getElem?_append]
      simp [hi, hv]

theorem mem_contentsOf (l : List Handle) (x : String) :
    x ∈ contentsOf l ↔ ∃ h ∈ l, h.content = x := by
  unfold contentsOf
  rw [List.mem_toFinset, List.mem_map]

theorem contentsOf_card (l : List Handle) (hinv : SetInv l) :
    (contentsOf l).card = l.length := by
  unfold contentsOf
  have hnd : (l.map Handle.content).Nodup := List.pairwise_map.mpr hinv
  rw [List.toFinset_card_of_nodup hnd, List.length_map]

theorem setGet_cons_self (l : List Handle) (h : Handle) (s : String)
    (hc : h.content = s) : setGet (h :: l) s = some h := by
  unfold setGet
  rw [List.find?_cons_of_pos]
  simp [hc]

theorem intern_intern_same (it : Interner) (w : World) (s : String) :
    (it.intern w s).interner.intern (it.intern w s).world s =
      ⟨(it.intern w s).handle, (it.intern w s).interner, (it.intern w s).world⟩ := by
  cases hg : setGet it.strings s with
  | some h =>
    rw [intern_hit it w s h hg]
    exact intern_hit it w s h hg
  | none =>
    rw [intern_miss it w s hg]
    exact intern_hit _ _ _ _ (setGet_cons_self _ _ _ rfl)

theorem locked_intern_eq_core (li : Sync.LockedInterner) (w : World) (s : String) :
    li.intern w s =
      (((⟨li.strings⟩ : Interner).intern w s).handle,
        ⟨((⟨li.strings⟩ : Interner).intern w s).interner.strings⟩,
        ((⟨li.strings⟩ : Interner).intern w s).world) := by
  unfold Sync.LockedInterner.intern Interner.intern
  cases hg : setGet li.strings s <;> simp [hg]

theorem contentsFinset_intern (it : Interner) (w : World) (s : String) :
    contentsFinset (it.intern w s).interner = insert s (contentsFinset it) := by
  cases hg : setGet it.strings s with
  | some h =>
    rw [intern_hit it w s h hg]
    have hs : s ∈ contentsFinset it := by
      rw [contentsFinset, mem_contentsOf]
      exact ⟨h, setGet_some_mem _ _ _ hg, setGet_some_content _ _ _ hg⟩
    exact (Finset.insert_eq_self.mpr hs).symm
  | none =>
    rw [intern_miss it w s hg]
    show contentsOf (⟨w.cells.length, s⟩ :: it.strings) = insert s (contentsFinset it)
    unfold contentsOf contentsFinset
    simp [contentsOf]

/-- An operation on an interner: one `intern` call or one `clear` call. -/
inductive Op where
  | intern : String → Op
  | clear : Op
  deriving DecidableEq, Repr

/-- Run a sequence of operations on an interner, threading the world. -/
def Interner.run (it : Interner) (w : World) : List Op → Interner × World
  | [] => (it, w)
  | Op.intern s :: ops =>
    let r := it.intern w s
    Interner.run r.interner r.world ops
  | Op.clear :: ops => Interner.run (Interner.clear it) w ops

/-- The set of contents the spec says consuming iteration must yield: the
distinct contents inserted (or present initially) and not removed by a
subsequent clear. -/
def expectedContents (init : Finset String) : List Op → Finset String
  | [] => init
  | Op.intern s :: ops => expectedContents (insert s init) ops
  | Op.clear :: ops => expectedContents ∅ ops

theorem setInv_internList (it : Interner) (w : World) (ss : List String)
    (hinv : SetInv it.strings) : SetInv (Interner.internList it w ss).1.strings := by
  induction ss generalizing it w with
  | nil => exact hinv
  | cons s ss ih => exact ih _ _ (setInv_intern it w s hinv)

theorem contentsFinset_internList (it : Interner) (w : World) (ss : List String) :
    contentsFinset (Interner.internList it w ss).1 = contentsFinset it ∪ ss.toFinset := by
  induction ss generalizing it w with
  | nil => simp [Interner.internList]
  | cons s ss ih =>
    show contentsFinset
        (Interner.internList (it.intern w s).interner (it.intern w s).world ss).1 = _
    rw [ih, contentsFinset_intern, List.toFinset_cons, Finset.insert_union,
      Finset.union_insert]

/-- C1: calling intern twice with the same string on the same engine
(exclusive or locked shared), with no intervening clear, returns the very
same handle (identity-equal, aliasing one allocation), and the second call
changes neither the stored set nor the allocation world (no allocation). -/
theorem intern_identity_aliasing (it : Interner) (li : Sync.LockedInterner)
    (w wl : World) (s : String) :
    (((it.intern w s).interner.intern (it.intern w s).world s).handle = (it.intern w s).handle ∧
      ((it.intern w s).interner.intern (it.intern w s).world s).interner = (it.intern w s).interner ∧
      ((it.intern w s).interner.intern (it.intern w s).world s).world = (it.intern w s).world) ∧
    ((li.intern wl s).2.1.intern (li.intern wl s).2.2 s = li.intern wl s) := by
  constructor
  · rw [intern_intern_same]
    exact ⟨rfl, rfl, rfl⟩
  · rw [locked_intern_eq_core li wl s]
    rw [locked_intern_eq_core]
    rw [intern_intern_same]

/-- C2: the storage set never holds two handles with the same content: the
invariant holds for a new engine, is preserved by intern, clear and clone,
and from_set stores the given set unchanged (no re-validation), so the
invariant there is exactly the one the set type itself guarantees. -/
theorem storage_set_unique_contents (it : Interner) (w : World) (s : String)
    (l : List Handle) (hinv : SetInv it.strings) (hl : SetInv l) :
    SetInv Interner.new.strings ∧
    SetInv (it.intern w s).interner.strings ∧
    SetInv (Interner.clear it).strings ∧
    SetInv (Interner.clone it).strings ∧
    (Interner.from_set l).strings = l ∧
    SetInv (Interner.from_set l).strings :=
  ⟨List.Pairwise.nil, setInv_intern it w s hinv, List.Pairwise.nil, hinv, rfl, hl⟩

theorem storage_set_unique_contents_witness :
    SetInv Interner.new.strings ∧
    SetInv ((⟨[⟨0, "a"⟩]⟩ : Interner).intern ⟨["a"]⟩ "b").interner.strings ∧
    SetInv (Interner.clear ⟨[⟨0, "a"⟩]⟩).strings ∧
    SetInv (Interner.clone ⟨[⟨0, "a"⟩]⟩).strings ∧
    (Interner.from_set [⟨1, "c"⟩]).strings = [⟨1, "c"⟩] ∧
    SetInv (Interner.from_set [⟨1, "c"⟩]).strings :=
  storage_set_unique_contents ⟨[⟨0, "a"⟩]⟩ ⟨["a"]⟩ "b" [⟨1, "c"⟩] (by decide) (by decide)

theorem containsContent_eq_true_iff (l : List Handle) (s : String) :
    containsContent l s = true ↔ ∃ h ∈ l, h.content = s := by
  unfold containsContent
  rw [List.any_eq_true]
  simp

theorem setEqv_self (l : List Handle) : setEqv l l = true := by
  unfold setEqv
  rw [Bool.and_eq_true]
  refine ⟨by simp, ?_⟩
  rw [List.all_eq_true]
  intro h hm
  exact (containsContent_eq_true_iff l h.content).mpr ⟨h, hm, rfl⟩

/-- C3: interning two distinct strings yields non-identity-equal handles,
and a sequence of intern calls grows the member count by exactly the number
of distinct contents in the sequence that were not already members. -/
theorem intern_distinctness (it : Interner) (w : World) (s1 s2 : String)
    (ss : List String) (hwf : WF w it) (hne : s1 ≠ s2) :
    ((it.intern w s1).interner.intern (it.intern w s1).world s2).handle.id ≠
      (it.intern w s1).handle.id ∧
    (Interner.internList it w ss).1.strings.length =
      it.strings.length + (ss.toFinset \ contentsFinset it).card := by
  constructor
  · have hwf1 := WF_intern it w s1 hwf
    have hwf2 := WF_intern (it.intern w s1).interner (it.intern w s1).world s2 hwf1
    have l1 : (it.intern w s1).world.cells[(it.intern w s1).handle.id]? = some s1 := by
      have := hwf1.2 _ (intern_handle_mem it w s1)
      rwa [intern_content] at this
    have l2 : ((it.intern w s1).interner.intern (it.intern w s1).world s2).world.cells[
        ((it.intern w s1).interner.intern (it.intern w s1).world s2).handle.id]? = some s2 := by
      have := hwf2.2 _ (intern_handle_mem (it.intern w s1).interner (it.intern w s1).world s2)
      rwa [intern_content] at this
    intro he
    have lm := intern_world_mono (it.intern w s1).interner (it.intern w s1).world s2 _ _ l1
    rw [← he] at lm
    rw [lm] at l2
    exact hne (Option.some.inj l2)
  · have h1 := setInv_internList it w ss hwf.1
    calc (Interner.internList it w ss).1.strings.length
        = (contentsFinset (Interner.internList it w ss).1).card :=
          (contentsOf_card _ h1).symm
      _ = (contentsFinset it ∪ ss.toFinset).card := by rw [contentsFinset_internList]
      _ = (ss.toFinset ∪ contentsFinset it).card := by rw [Finset.union_comm]
      _ = (ss.toFinset \ contentsFinset it).card + (contentsFinset it).card :=
          (Finset.card_sdiff_add_card _ _).symm
      _ = (ss.toFinset \ contentsFinset it).card + it.strings.length := by
          have hcard : (contentsFinset it).card = it.strings.length :=
            contentsOf_card it.strings hwf.1
          rw [hcard]
      _ = it.strings.length + (ss.toFinset \ contentsFinset it).card := Nat.add_comm _ _

theorem intern_distinctness_witness :
    (((⟨[]⟩ : Interner).intern ⟨[]⟩ "a").interner.intern
        ((⟨[]⟩ : Interner).intern ⟨[]⟩ "a").world "b").handle.id ≠
      ((⟨[]⟩ : Interner).intern ⟨[]⟩ "a").handle.id ∧
    (Interner.internList ⟨[]⟩ ⟨[]⟩ ["a", "b", "a"]).1.strings.length =
      ([] : List Handle).length +
        ((["a", "b", "a"] : List String).toFinset \ contentsFinset ⟨[]⟩).card :=
  intern_distinctness ⟨[]⟩ ⟨[]⟩ "a" "b" ["a", "b", "a"] (by decide) (by decide)

/-- C4: interning a string, clearing, then interning the same string again
yields a handle with the same content but a different allocation id; the
clear empties the stored set, and the first handle still reads its original
content from its allocation afterwards. -/
theorem clear_independence (it : Interner) (w : World) (s : String) (hwf : WF w it) :
    ((Interner.clear (it.intern w s).interner).intern
        (it.intern w s).world s).handle.content = (it.intern w s).handle.content ∧
    ((Interner.clear (it.intern w s).interner).intern
        (it.intern w s).world s).handle.id ≠ (it.intern w s).handle.id ∧
    (Interner.clear (it.intern w s).interner).strings = [] ∧
    ((Interner.clear (it.intern w s).interner).intern
        (it.intern w s).world s).world.cells[(it.intern w s).handle.id]? =
      some (it.intern w s).handle.content := by
  have hc1 := intern_content it w s
  have hwf1 := WF_intern it w s hwf
  have hmem := intern_handle_mem it w s
  have hlook := hwf1.2 _ hmem
  have hid := WF_id_lt _ _ _ hwf1 hmem
  have hmiss : setGet (Interner.clear (it.intern w s).interner).strings s = none := rfl
  rw [intern_miss _ _ _ hmiss]
  refine ⟨by rw [hc1], ?_, rfl, ?_⟩
  · show (it.intern w s).world.cells.length ≠ (it.intern w s).handle.id
    exact (Nat.ne_of_lt hid).symm
  · show ((it.intern w s).world.cells ++ [s])[(it.intern w s).handle.id]? =
      some (it.intern w s).handle.content
    rw [List.getElem?_append]
    simp [hid, hlook]

theorem clear_independence_witness :
    ((Interner.clear ((⟨[]⟩ : Interner).intern ⟨[]⟩ "foo").interner).intern
        ((⟨[]⟩ : Interner).intern ⟨[]⟩ "foo").world "foo").handle.content =
      ((⟨[]⟩ : Interner).intern ⟨[]⟩ "foo").handle.content ∧
    ((Interner.clear ((⟨[]⟩ : Interner).intern ⟨[]⟩ "foo").interner).intern
        ((⟨[]⟩ : Interner).intern ⟨[]⟩ "foo").world "foo").handle.id ≠
      ((⟨[]⟩ : Interner).intern ⟨[]⟩ "foo").handle.id ∧
    (Interner.clear ((⟨[]⟩ : Interner).intern ⟨[]⟩ "foo").interner).strings = [] ∧
    ((Interner.clear ((⟨[]⟩ : Interner).intern ⟨[]⟩ "foo").interner).intern
        ((⟨[]⟩ : Interner).intern ⟨[]⟩ "foo").world "foo").world.cells[
      ((⟨[]⟩ : Interner).intern ⟨[]⟩ "foo").handle.id]? =
      some ((⟨[]⟩ : Interner).intern ⟨[]⟩ "foo").handle.content :=
  clear_independence ⟨[]⟩ ⟨[]⟩ "foo" (by decide)

/-- C7: consuming an engine into its set after any sequence of intern and
clear operations yields exactly the distinct contents inserted (or present
at construction) and not removed by a later clear. -/
theorem into_set_totality (it : Interner) (w : World) (ops : List Op) :
    contentsOf (Interner.run it w ops).1.into_set =
      expectedContents (contentsFinset it) ops := by
  induction ops generalizing it w with
  | nil => rfl
  | cons op ops ih =>
    cases op with
    | intern s =>
      show contentsOf (Interner.run (it.intern w s).interner (it.intern w s).world ops).1.into_set = _
      rw [ih, contentsFinset_intern]
      rfl
    | clear =>
      show contentsOf (Interner.run (Interner.clear it) w ops).1.into_set = _
      rw [ih]
      have : contentsFinset (Interner.clear it) = ∅ := rfl
      rw [this]
      rfl

/-- C5: two interners compare equal exactly when they hold the same set of
distinct contents, independently of handle allocation ids and of insertion
order; the shared variant compares the inner sets the same way once both
locks are acquired. -/
theorem set_equality_law (a b : Interner) (la lb : List Handle)
    (ha : SetInv a.strings) (hb : SetInv b.strings) :
    (Interner.beq a b = true ↔ contentsFinset a = contentsFinset b) ∧
    Sync.Interner.beq ⟨la, false⟩ ⟨lb, false⟩ = .ok (setEqv la lb) := by
  constructor
  · unfold Interner.beq setEqv
    rw [Bool.and_eq_true, List.all_eq_true]
    constructor
    · rintro ⟨hlen, hall⟩
      have hlen2 : a.strings.length = b.strings.length := by simpa using hlen
      have hsub : contentsFinset a ⊆ contentsFinset b := by
        intro x hx
        rcases (mem_contentsOf a.strings x).mp hx with ⟨h, hm, rfl⟩
        have hc := (containsContent_eq_true_iff b.strings h.content).mp (hall h hm)
        rcases hc with ⟨g, hg, hgc⟩
        exact (mem_contentsOf b.strings h.content).mpr ⟨g, hg, hgc⟩
      refine Finset.eq_of_subset_of_card_le hsub ?_
      have hca : (contentsFinset a).card = a.strings.length := contentsOf_card a.strings ha
      have hcb : (contentsFinset b).card = b.strings.length := contentsOf_card b.strings hb
      rw [hca, hcb]
      exact Nat.le_of_eq hlen2.symm
    · intro heq
      have hca : (contentsFinset a).card = a.strings.length := contentsOf_card a.strings ha
      have hcb : (contentsFinset b).card = b.strings.length := contentsOf_card b.strings hb
      have hlen2 : a.strings.length = b.strings.length := by
        rw [← hca, ← hcb]
        exact congrArg Finset.card heq
      refine ⟨by simp [hlen2], ?_⟩
      intro h hm
      have hx : h.content ∈ contentsFinset b := by
        rw [← heq]
        exact (mem_contentsOf a.strings h.content).mpr ⟨h, hm, rfl⟩
      rcases (mem_contentsOf b.strings h.content).mp hx with ⟨g, hg, hgc⟩
      exact (containsContent_eq_true_iff b.strings h.content).mpr ⟨g, hg, hgc⟩
  · rfl

theorem set_equality_law_witness :
    (Interner.beq ⟨[⟨0, "a"⟩, ⟨1, "b"⟩]⟩ ⟨[⟨5, "b"⟩, ⟨7, "a"⟩]⟩ = true ↔
      contentsFinset ⟨[⟨0, "a"⟩, ⟨1, "b"⟩]⟩ = contentsFinset ⟨[⟨5, "b"⟩, ⟨7, "a"⟩]⟩) ∧
    Sync.Interner.beq ⟨[⟨0, "a"⟩], false⟩ ⟨[⟨2, "a"⟩], false⟩ =
      .ok (setEqv [⟨0, "a"⟩] [⟨2, "a"⟩]) :=
  set_equality_law ⟨[⟨0, "a"⟩, ⟨1, "b"⟩]⟩ ⟨[⟨5, "b"⟩, ⟨7, "a"⟩]⟩ [⟨0, "a"⟩] [⟨2, "a"⟩]
    (by decide) (by decide)

/-- C6: on the shared engine, lock, intern, clear and into_set fail exactly
when the engine is poisoned; on an unpoisoned engine intern returns a handle
and clear succeeds. -/
theorem lock_poisoning (it : Sync.Interner) (l : List Handle) (w : World) (s : String) :
    (it.lock).isOk = !it.poisoned ∧
    (it.intern w s).isOk = !it.poisoned ∧
    (it.clear).isOk = !it.poisoned ∧
    (it.into_set).isOk = !it.poisoned ∧
    (∃ r, Sync.Interner.intern ⟨l, false⟩ w s = .ok r) ∧
    (∃ it2, Sync.Interner.clear ⟨l, false⟩ = .ok it2) := by
  refine ⟨?_, ?_, ?_, ?_, ⟨_, rfl⟩, ⟨_, rfl⟩⟩ <;>
    cases hp : it.poisoned <;>
      simp [Sync.Interner.lock, Sync.Interner.intern, Sync.Interner.clear,
        Sync.Interner.into_set, hp, Except.isOk, Except.toBool]

/-- C8: two engines whose stored handles share no allocation (as any two
separately constructed engines do) intern the same string into handles with
different allocation ids, though both handles carry that content. -/
theorem cross_engine_independence (w : World) (it1 it2 : Interner) (s : String)
    (hwf1 : WF w it1) (hwf2 : WF w it2)
    (hdisj : ∀ a ∈ it1.strings, ∀ b ∈ it2.strings, a.id ≠ b.id) :
    (it2.intern (it1.intern w s).world s).handle.id ≠ (it1.intern w s).handle.id ∧
    (it1.intern w s).handle.content = s ∧
    (it2.intern (it1.intern w s).world s).handle.content = s := by
  refine ⟨?_, intern_content it1 w s, intern_content it2 (it1.intern w s).world s⟩
  cases hg1 : setGet it1.strings s with
  | some h1 =>
    rw [intern_hit it1 w s h1 hg1]
    cases hg2 : setGet it2.strings s with
    | some h2 =>
      rw [intern_hit it2 w s h2 hg2]
      exact (hdisj h1 (setGet_some_mem _ _ _ hg1) h2 (setGet_some_mem _ _ _ hg2)).symm
    | none =>
      rw [intern_miss it2 w s hg2]
      exact (Nat.ne_of_lt (WF_id_lt w it1 h1 hwf1 (setGet_some_mem _ _ _ hg1))).symm
  | none =>
    rw [intern_miss it1 w s hg1]
    cases hg2 : setGet it2.strings s with
    | some h2 =>
      rw [intern_hit it2 ⟨w.cells ++ [s]⟩ s h2 hg2]
      exact Nat.ne_of_lt (WF_id_lt w it2 h2 hwf2 (setGet_some_mem _ _ _ hg2))
    | none =>
      rw [intern_miss it2 ⟨w.cells ++ [s]⟩ s hg2]
      simp

theorem cross_engine_independence_witness :
    ((⟨[]⟩ : Interner).intern ((⟨[]⟩ : Interner).intern ⟨[]⟩ "x").world "x").handle.id ≠
      ((⟨[]⟩ : Interner).intern ⟨[]⟩ "x").handle.id ∧
    ((⟨[]⟩ : Interner).intern ⟨[]⟩ "x").handle.content = "x" ∧
    ((⟨[]⟩ : Interner).intern ((⟨[]⟩ : Interner).intern ⟨[]⟩ "x").world "x").handle.content = "x" :=
  cross_engine_independence ⟨[]⟩ ⟨[]⟩ ⟨[]⟩ "x" (by decide) (by decide) (by decide)

theorem sync_intern_unpoisoned (l : List Handle) (w : World) (s : String) :
    Sync.Interner.intern ⟨l, false⟩ w s =
      .ok (((⟨l⟩ : Interner).intern w s).handle,
        ⟨((⟨l⟩ : Interner).intern w s).interner.strings, false⟩,
        ((⟨l⟩ : Interner).intern w s).world) := by
  have hlock : Sync.Interner.lock ⟨l, false⟩ = .ok ⟨l⟩ := rfl
  unfold Sync.Interner.intern
  rw [hlock]
  simp [locked_intern_eq_core]

theorem internK_steady (s : String) (k : Nat) (l : List Handle) (h : Handle) (w : World)
    (hg : setGet l s = some h) :
    Sync.Interner.internK s k ⟨l, false⟩ w = .ok (List.replicate k h, ⟨l, false⟩, w) := by
  induction k with
  | zero => rfl
  | succ k ih =>
    have hstep : Sync.Interner.intern ⟨l, false⟩ w s = .ok (h, ⟨l, false⟩, w) := by
      rw [sync_intern_unpoisoned, intern_hit ⟨l⟩ w s h hg]
    simp only [Sync.Interner.internK, hstep, ih, List.replicate_succ]

/-- C9: any serialized execution of K = k + 1 intern calls for one string on
an unpoisoned shared engine not yet holding that content performs exactly one
allocation, stores exactly one entry for the content, and hands every caller
the same handle (all K results mutually identity-equal); the mutex makes each
call one atomic step, so every concurrent schedule is such a sequence. -/
theorem concurrent_convergence (l : List Handle) (w : World) (s : String) (k : Nat)
    (habs : containsContent l s = false) :
    Sync.Interner.internK s (k + 1) ⟨l, false⟩ w =
      .ok (List.replicate (k + 1) (⟨w.cells.length, s⟩ : Handle),
        ⟨⟨w.cells.length, s⟩ :: l, false⟩, ⟨w.cells ++ [s]⟩) ∧
    ((⟨w.cells.length, s⟩ :: l).filter (fun x => x.content == s)).length = 1 ∧
    (w.cells ++ [s]).length = w.cells.length + 1 := by
  have habs2 : ∀ h ∈ l, h.content ≠ s := by
    intro h hm
    have := List.any_eq_false.mp habs h hm
    simpa using this
  have hg : setGet l s = none := (setGet_eq_none_iff l s).mpr habs2
  refine ⟨?_, ?_, by simp⟩
  · have hstep : Sync.Interner.intern ⟨l, false⟩ w s =
        .ok ((⟨w.cells.length, s⟩ : Handle), ⟨⟨w.cells.length, s⟩ :: l, false⟩,
          ⟨w.cells ++ [s]⟩) := by
      rw [sync_intern_unpoisoned, intern_miss ⟨l⟩ w s hg]
    have hrest := internK_steady s k (⟨w.cells.length, s⟩ :: l) ⟨w.cells.length, s⟩
      ⟨w.cells ++ [s]⟩ (setGet_cons_self l ⟨w.cells.length, s⟩ s rfl)
    simp only [Sync.Interner.internK, hstep, hrest, List.replicate_succ]
  · rw [List.filter_cons_of_pos (by simp)]
    have hnil : l.filter (fun x => x.content == s) = [] := by
      rw [List.filter_eq_nil_iff]
      intro x hx
      simp [habs2 x hx]
    rw [hnil]
    rfl

theorem concurrent_convergence_witness :
    Sync.Interner.internK "x" 100 ⟨[], false⟩ ⟨[]⟩ =
      .ok (List.replicate 100 (⟨0, "x"⟩ : Handle), ⟨[⟨0, "x"⟩], false⟩, ⟨["x"]⟩) ∧
    (([⟨0, "x"⟩] : List Handle).filter (fun x => x.content == "x")).length = 1 ∧
    (([] : List String) ++ ["x"]).length = ([] : List String).length + 1 := by
  have := concurrent_convergence [] ⟨[]⟩ "x" 99 (by decide)
  simpa using this

/-- C10: cloning an interner keeps the very same stored handles (same
allocation ids), the clone is content-equal to the original, and interning
an already-present string on the clone returns a handle identity-equal to
the one the original returns. -/
theorem clone_shares_allocations (it : Interner) (w : World) (s : String)
    (_hmem : containsContent it.strings s = true) :
    (Interner.clone it).strings = it.strings ∧
    Interner.beq (Interner.clone it) it = true ∧
    ((Interner.clone it).intern w s).handle = (it.intern w s).handle ∧
    ((Interner.clone it).intern w s).handle.id = (it.intern w s).handle.id :=
  ⟨rfl, setEqv_self it.strings, rfl, rfl⟩

theorem clone_shares_allocations_witness :
    (Interner.clone ⟨[⟨0, "x"⟩]⟩).strings = [⟨0, "x"⟩] ∧
    Interner.beq (Interner.clone ⟨[⟨0, "x"⟩]⟩) ⟨[⟨0, "x"⟩]⟩ = true ∧
    ((Interner.clone ⟨[⟨0, "x"⟩]⟩).intern ⟨["x"]⟩ "x").handle =
      ((⟨[⟨0, "x"⟩]⟩ : Interner).intern ⟨["x"]⟩ "x").handle ∧
    ((Interner.clone ⟨[⟨0, "x"⟩]⟩).intern ⟨["x"]⟩ "x").handle.id =
      ((⟨[⟨0, "x"⟩]⟩ : Interner).intern ⟨["x"]⟩ "x").handle.id :=
  clone_shares_allocations ⟨[⟨0, "x"⟩]⟩ ⟨["x"]⟩ "x" (by decide)

end StrIntern
